import Mathlib

/-!
Verification of the fileorg core pipeline (scan → analyze → organize → execute).

This file is a shallow embedding of the core components of the `fileorg`
repository into Lean 4, together with theorems settling the specification
claims about them:

* `src/fileorg/core/scanner.py`   — `FileScanner._should_exclude`,
  `FileScanner.scan_directory`, `FileScanner.scan`, and the path-validation
  gate of the `fo scan` command (`src/fileorg/cli/scan.py`).
* `src/fileorg/core/hasher.py`    — the digest is modelled as a pure
  function `List String → Option String` (per-path memoisation makes
  repeated calls return the same value, so a function is a faithful model
  of one scan+analyze run).
* `src/fileorg/core/analyzer.py`  — `FileAnalyzer._detect_large_files`,
  `FileAnalyzer._detect_duplicates`, `FileAnalyzer.analyze`.
* `src/fileorg/definition/*.py`   — the data model (`FileInfo`,
  `DirectoryInfo`, `DuplicateGroup`, `AnalysisResult`, ...).
* `src/fileorg/core/organizer.py` — `SmartOrganizer._suggest_folder`,
  `SmartOrganizer._extract_date_pattern`, `SmartOrganizer._is_screenshot`.
* `src/fileorg/core/executor.py`  — `FileExecutor._resolve_conflict`,
  `FileExecutor.execute_organization_plan`.

Paths are modelled as lists of path segments (`List String`).  Python
`int` is modelled as `Int`/`Nat` (sizes from `os.stat` are never negative),
and the float threshold arithmetic of the analyzer is modelled exactly
with `ℚ`: multiplying an IEEE-754 double by `1024 * 1024` only rescales
the exponent, so it is exact, and every double is a rational number.
-/

/-! ### Generic helpers: substring search (Python `in` on `str`) -/

/-- Check that the character list `pat` is a prefix of `s`. -/
def charsPrefixTest : List Char → List Char → Bool
  | [], _ => true
  | _ :: _, [] => false
  | a :: as, b :: bs => a == b && charsPrefixTest as bs

/-- Check that `pat` occurs contiguously somewhere in `s`; this is the
Python substring test `pat in s`. -/
def charsContain (pat : List Char) : List Char → Bool
  | [] => charsPrefixTest pat []
  | c :: cs => charsPrefixTest pat (c :: cs) || charsContain pat cs

/-- Python `pat in s` on strings: contiguous-substring test. -/
def strContains (s pat : String) : Bool :=
  charsContain pat.toList s.toList

/-- Python `s.startswith(pre)`. -/
def strStarts (s pre : String) : Bool :=
  charsPrefixTest pre.toList s.toList

/-- Python `s.endswith(suf)`. -/
def strEnds (s suf : String) : Bool :=
  charsPrefixTest suf.toList.reverse s.toList.reverse

/-- ASCII lowercasing of one character; Python `str.lower()` restricted to
ASCII, which covers every string the core compares case-insensitively
(extensions, pattern keywords; CJK characters have no case). -/
def lowerChar (c : Char) : Char :=
  if 'A' ≤ c ∧ c ≤ 'Z' then Char.ofNat (c.toNat + 32) else c

/-- Python `s.lower()` (ASCII). -/
def lowerStr (s : String) : String :=
  String.mk (s.toList.map lowerChar)

/-! ### Generic helpers: stable descending sort by an integer key

Python `sorted(xs, key=k, reverse=True)` is a stable descending sort.
Insertion sort below places a newly inserted element in front of elements
with an equal key, which (together with inserting from the left) gives
exactly the stable descending order. -/

/-- Insert `x` into a descending-sorted list: `x` goes before the first
element whose key is not strictly greater than the key of `x`. -/
def insertKeyDesc (key : α → Int) (x : α) : List α → List α
  | [] => [x]
  | y :: ys => if key x < key y then y :: insertKeyDesc key x ys else x :: y :: ys

/-- Stable descending insertion sort by an integer key; models Python
`sorted(xs, key=key, reverse=True)`. -/
def sortKeyDesc (key : α → Int) : List α → List α
  | [] => []
  | x :: xs => insertKeyDesc key x (sortKeyDesc key xs)

theorem mem_insertKeyDesc (key : α → Int) (x : α) (l : List α) (a : α) :
    a ∈ insertKeyDesc key x l ↔ a = x ∨ a ∈ l := by
  induction l with
  | nil => simp [insertKeyDesc]
  | cons y ys ih =>
    simp only [insertKeyDesc]
    by_cases h : key x < key y
    · simp only [if_pos h, List.mem_cons, ih]
      tauto
    · simp only [if_neg h, List.mem_cons]

theorem mem_sortKeyDesc (key : α → Int) (l : List α) (a : α) :
    a ∈ sortKeyDesc key l ↔ a ∈ l := by
  induction l with
  | nil => simp [sortKeyDesc]
  | cons x xs ih =>
    simp only [sortKeyDesc, mem_insertKeyDesc, List.mem_cons, ih]

theorem pairwise_insertKeyDesc (key : α → Int) (x : α) (l : List α)
    (h : l.Pairwise (fun a b => key b ≤ key a)) :
    (insertKeyDesc key x l).Pairwise (fun a b => key b ≤ key a) := by
  induction l with
  | nil => simp [insertKeyDesc]
  | cons y ys ih =>
    simp only [insertKeyDesc]
    rcases List.pairwise_cons.1 h with ⟨hy, hys⟩
    by_cases hcmp : key x < key y
    · rw [if_pos hcmp]
      refine List.pairwise_cons.2 ⟨?_, ih hys⟩
      intro b hb
      rcases (mem_insertKeyDesc key x ys b).1 hb with rfl | hb
      · exact le_of_lt hcmp
      · exact hy b hb
    · rw [if_neg hcmp]
      refine List.pairwise_cons.2 ⟨?_, h⟩
      intro b hb
      rcases List.mem_cons.1 hb with rfl | hb
      · exact le_of_not_lt hcmp
      · exact le_trans (hy b hb) (le_of_not_lt hcmp)

theorem pairwise_sortKeyDesc (key : α → Int) (l : List α) :
    (sortKeyDesc key l).Pairwise (fun a b => key b ≤ key a) := by
  induction l with
  | nil => simp [sortKeyDesc]
  | cons x xs ih => exact pairwise_insertKeyDesc key x _ ih

/-! ### Scanner data model

Mirrors `src/fileorg/definition/scan_result.py`, `file_info.py` and the
scanner in `src/fileorg/core/scanner.py`.  Paths are lists of segments;
timestamps enter only through the derived quantities the core actually
uses (`days_since_access` and the creation `"%Y-%m"` string used by the
organizer), which we carry as abstract per-file data. -/

/-- Scan configuration (`ScanConfig` in `scan_result.py`); only the fields
the scanner consults during traversal. -/
structure ScanConfigM where
  recursive : Bool
  include_hidden : Bool
  max_depth : Option Nat
  exclude_patterns : List String
deriving DecidableEq

/-- File metadata record (`FileInfo` in `file_info.py`). `days_since_access`
and `created_ym` stand for the derived access-age and the creation
month string `strftime("%Y-%m")` used by the organizer. -/
structure FileInfoM where
  path : List String
  name : String
  extension : String
  size_bytes : Nat
  days_since_access : Int
  created_ym : String
deriving DecidableEq

/-- Directory record (`DirectoryInfo` in `file_info.py`), field order as in
the `DirectoryInfo(...)` constructor call of `scan_directory`. -/
structure DirInfoM where
  path : List String
  name : String
  file_count : Nat
  total_size_bytes : Nat
  subdirectory_count : Nat
  depth : Nat
deriving DecidableEq

/-- An element of the stream yielded by `scan_directory`. -/
inductive Item where
  | fileI (f : FileInfoM)
  | dirI (d : DirInfoM)
deriving DecidableEq

/-- A filesystem node as the scanner sees it: `statOk` models whether
`os.stat` succeeds on a file, `listOk` whether `iterdir` succeeds on a
directory (`PermissionError` / `FileNotFoundError` / `OSError`). -/
inductive FSEntry where
  | file (name : String) (size : Nat) (daysAccess : Int) (createdYM : String) (statOk : Bool)
  | dir (name : String) (entries : List FSEntry) (listOk : Bool)

/-- Model of `FileScanner._should_exclude`: a pattern starting with `*`
matches by suffix (against the pattern minus the `*`), any other pattern
matches as a substring of the name. -/
def shouldExclude (patterns : List String) (name : String) : Bool :=
  patterns.any fun pat =>
    if strStarts pat "*" then strEnds name (pat.drop 1)
    else strContains name pat

/-- The per-entry skip test of the `scan_directory` loop: hidden names when
`include_hidden` is false, then the exclude patterns. -/
def skipEntry (cfg : ScanConfigM) (name : String) : Bool :=
  (!cfg.include_hidden && strStarts name ".") || shouldExclude cfg.exclude_patterns name

/-- Model of pathlib `Path.suffix` followed by `.lower()` as used in
`scan_file`: split at the last dot; the dot must be neither the first nor
the last character of the name, otherwise the suffix is empty. -/
def lastDotSplit : List Char → Option (List Char × List Char)
  | [] => none
  | c :: cs =>
    match lastDotSplit cs with
    | some (pre, suf) => some (c :: pre, suf)
    | none => if c == '.' then some ([], cs) else none

/-- Lowercased extension of a file name (`path.suffix.lower()`). -/
def pySuffix (name : String) : String :=
  match lastDotSplit name.toList with
  | some (pre, suf) =>
    if pre.isEmpty || suf.isEmpty then "" else lowerStr (String.mk ('.' :: suf))
  | none => ""

/-- The `max_depth` cutoff of `scan_directory`:
`max_depth is not None and depth > max_depth`. -/
def depthExceeded (cfg : ScanConfigM) (depth : Nat) : Bool :=
  match cfg.max_depth with
  | some m => decide (m < depth)
  | none => false

/-- Sizes of all FileInfo items in a stream; `scan_directory` adds
exactly these when it re-yields a subdirectory's stream. -/
def sumFileSizes (items : List Item) : Nat :=
  (items.filterMap fun it =>
    match it with
    | Item.fileI f => some f.size_bytes
    | Item.dirI _ => none).sum

/-- FileInfo records of a stream, in order. -/
def fileItems (items : List Item) : List FileInfoM :=
  items.filterMap fun it =>
    match it with
    | Item.fileI f => some f
    | Item.dirI _ => none

/-- DirectoryInfo records of a stream, in order. -/
def dirItems (items : List Item) : List DirInfoM :=
  items.filterMap fun it =>
    match it with
    | Item.fileI _ => none
    | Item.dirI d => some d

/-- The body of the `scan_directory` entry loop
(`src/fileorg/core/scanner.py`, lines 105-146): returns the yielded
stream together with the `file_count`, `dir_count` and `total_size`
accumulators of the enclosing directory.  For a subdirectory entry the
nested stream is computed exactly as `scan_directory` computes it (depth
cutoff, `iterdir` failure, recursion, then the directory's own record),
and `total_size` grows by the sizes of the FileInfo items re-yielded from
that stream — which is how the source accumulates `total_size` across the
whole subtree. -/
def processEntries (cfg : ScanConfigM) (path : List String) (depth : Nat) :
    List FSEntry → List Item × Nat × Nat × Nat
  | [] => ([], 0, 0, 0)
  | FSEntry.file fname fsize fdays fym fok :: rest =>
    let r := processEntries cfg path depth rest
    if skipEntry cfg fname then r
    else if fok then
      (Item.fileI ⟨path ++ [fname], fname, pySuffix fname, fsize, fdays, fym⟩ :: r.1,
        r.2.1 + 1, r.2.2.1, r.2.2.2 + fsize)
    else r
  | FSEntry.dir dname dentries dok :: rest =>
    let r := processEntries cfg path depth rest
    if skipEntry cfg dname then r
    else if cfg.recursive then
      let sub :=
        if depthExceeded cfg (depth + 1) then []
        else if dok then
          let p := processEntries cfg (path ++ [dname]) (depth + 1) dentries
          p.1 ++ [Item.dirI ⟨path ++ [dname], dname, p.2.1, p.2.2.2, p.2.2.1, depth + 1⟩]
        else []
      (sub ++ r.1, r.2.1, r.2.2.1 + 1, r.2.2.2 + sumFileSizes sub)
    else r

/-- Model of `FileScanner.scan_directory`: depth cutoff, `iterdir`, the
entry loop, then the directory's own record carrying the accumulated
`file_count`, `total_size`, `dir_count` and the depth. -/
def scanDirectory (cfg : ScanConfigM) (name : String) (path : List String) (listOk : Bool)
    (entries : List FSEntry) (depth : Nat) : List Item :=
  if depthExceeded cfg depth then []
  else if listOk then
    let p := processEntries cfg path depth entries
    p.1 ++ [Item.dirI ⟨path, name, p.2.1, p.2.2.2, p.2.2.1, depth⟩]
  else []

/-- A configured root as `FileScanner.scan` sees it: it may not exist, be a
single file, or be a directory. -/
inductive RootM where
  | missing (name : String)
  | fileRoot (name : String) (size : Nat) (daysAccess : Int) (createdYM : String) (statOk : Bool)
  | dirRoot (name : String) (entries : List FSEntry) (listOk : Bool)

/-- Scan result (`ScanResult` in `scan_result.py`); the summary block is
not needed by any claim and is omitted. -/
structure ScanResultM where
  files : List FileInfoM
  directories : List DirInfoM
deriving DecidableEq

/-- Contribution of one root in the loop of `FileScanner.scan`
(`scanner.py` lines 180-201): a missing root is skipped; a file root is
recorded directly via `scan_file` with no exclude/hidden check; a
directory root is traversed with `scan_directory` at depth 0. -/
def scanRoot (cfg : ScanConfigM) : RootM → List FileInfoM × List DirInfoM
  | RootM.missing _ => ([], [])
  | RootM.fileRoot name size daysA cym ok =>
    if ok then ([⟨[name], name, pySuffix name, size, daysA, cym⟩], []) else ([], [])
  | RootM.dirRoot name entries ok =>
    let items := scanDirectory cfg name [name] ok entries 0
    (fileItems items, dirItems items)

/-- Model of `FileScanner.scan`: fold the roots in order, appending each
root's files and directories. -/
def scan (cfg : ScanConfigM) (roots : List RootM) : ScanResultM :=
  roots.foldl
    (fun acc r =>
      let p := scanRoot cfg r
      ⟨acc.files ++ p.1, acc.directories ++ p.2⟩)
    ⟨[], []⟩

/-- Existence test on a configured root (`target_path.exists()` in the
scanner, `p.exists()` in the CLI validation loop). -/
def rootExistsB : RootM → Bool
  | RootM.missing _ => false
  | RootM.fileRoot .. => true
  | RootM.dirRoot .. => true

/-- Model of the path-validation gate of the `fo scan` command
(`src/fileorg/cli/scan.py`): non-existent paths are dropped with an error
message, and if no valid path remains the command raises `typer.Exit(1)`
— modelled as `Except.error ()` — before any scanning happens; otherwise
the scanner runs on the valid paths. -/
def cliScanCommand (cfg : ScanConfigM) (roots : List RootM) : Except Unit ScanResultM :=
  let valid := roots.filter rootExistsB
  if valid.isEmpty then Except.error () else Except.ok (scan cfg valid)

/-! ### Scanner lemmas -/

theorem sumFileSizes_append (a b : List Item) :
    sumFileSizes (a ++ b) = sumFileSizes a + sumFileSizes b := by
  simp [sumFileSizes, List.filterMap_append]

theorem fileItems_append (a b : List Item) :
    fileItems (a ++ b) = fileItems a ++ fileItems b := by
  simp [fileItems, List.filterMap_append]

theorem sumFileSizes_cons_file (f : FileInfoM) (l : List Item) :
    sumFileSizes (Item.fileI f :: l) = f.size_bytes + sumFileSizes l := by
  simp [sumFileSizes]

theorem sumFileSizes_cons_dir (d : DirInfoM) (l : List Item) :
    sumFileSizes (Item.dirI d :: l) = sumFileSizes l := by
  simp [sumFileSizes]

/-- Test for a direct child that the scan loop records as a file: not
skipped by the hidden/exclude filters and statable. -/
def isKeptFileEntry (cfg : ScanConfigM) : FSEntry → Bool
  | FSEntry.file fname _ _ _ fok => !skipEntry cfg fname && fok
  | FSEntry.dir .. => false

/-- Test for a direct child that the scan loop counts as a subdirectory. -/
def isKeptDirEntry (cfg : ScanConfigM) : FSEntry → Bool
  | FSEntry.dir dname _ _ => !skipEntry cfg dname
  | FSEntry.file .. => false

/-- Number of direct file children recorded by the loop. -/
def directFileCount (cfg : ScanConfigM) (entries : List FSEntry) : Nat :=
  entries.countP (isKeptFileEntry cfg)

/-- Number of direct subdirectory children counted by the loop (only in
recursive mode: the non-recursive branch never increments `dir_count`). -/
def directSubdirCount (cfg : ScanConfigM) (entries : List FSEntry) : Nat :=
  if cfg.recursive then entries.countP (isKeptDirEntry cfg) else 0

/-- Total byte size of the direct file children recorded by the loop. -/
def directFileSizes (cfg : ScanConfigM) (entries : List FSEntry) : Nat :=
  (entries.filterMap fun e =>
    match e with
    | FSEntry.file fname fsize _ _ fok =>
      if !skipEntry cfg fname && fok then some fsize else none
    | FSEntry.dir .. => none).sum

theorem processEntries_accumulators (cfg : ScanConfigM) (path : List String) (depth : Nat)
    (entries : List FSEntry) :
    (processEntries cfg path depth entries).2.1 = directFileCount cfg entries ∧
    (processEntries cfg path depth entries).2.2.1 = directSubdirCount cfg entries ∧
    (processEntries cfg path depth entries).2.2.2 =
      sumFileSizes (processEntries cfg path depth entries).1 := by
  induction entries with
  | nil =>
    simp [processEntries, directFileCount, directSubdirCount, sumFileSizes]
  | cons e rest ih =>
    rcases ih with ⟨ihf, ihd, ihs⟩
    cases e with
    | file fname fsize fdays fym fok =>
      cases hskip : skipEntry cfg fname with
      | true =>
        simp [processEntries, hskip, directFileCount, directSubdirCount,
          List.countP_cons, isKeptFileEntry, isKeptDirEntry, ihf, ihd, ihs]
      | false =>
        cases fok with
        | false =>
          simp [processEntries, hskip, directFileCount, directSubdirCount,
            List.countP_cons, isKeptFileEntry, isKeptDirEntry, ihf, ihd, ihs]
        | true =>
          simp [processEntries, hskip, directFileCount, directSubdirCount,
            List.countP_cons, isKeptFileEntry, isKeptDirEntry, sumFileSizes_cons_file,
            ihf, ihd, ihs] <;> omega
    | dir dname dentries dok =>
      cases hskip : skipEntry cfg dname with
      | true =>
        simp [processEntries, hskip, directFileCount, directSubdirCount,
          List.countP_cons, isKeptFileEntry, isKeptDirEntry, ihf, ihd, ihs]
      | false =>
        cases hrec : cfg.recursive with
        | false =>
          simp [processEntries, hskip, hrec, directFileCount, directSubdirCount,
            List.countP_cons, isKeptFileEntry, isKeptDirEntry, ihf, ihd, ihs]
        | true =>
          simp [processEntries, hskip, hrec, directFileCount, directSubdirCount,
            List.countP_cons, isKeptFileEntry, isKeptDirEntry,
            sumFileSizes_append, ihf, ihd, ihs] <;> omega

@[simp]
theorem fileItems_nil : fileItems [] = [] := by
  simp [fileItems]

@[simp]
theorem fileItems_cons_file (f : FileInfoM) (l : List Item) :
    fileItems (Item.fileI f :: l) = f :: fileItems l := by
  simp [fileItems]

@[simp]
theorem fileItems_cons_dir (d : DirInfoM) (l : List Item) :
    fileItems (Item.dirI d :: l) = fileItems l := by
  simp [fileItems]

/-- Every FileInfo yielded by the entry loop passed the hidden/exclude
filters on its own name (entries of skipped directories are never reached
at all, so their files never enter the stream). -/
theorem processEntries_files_not_excluded (cfg : ScanConfigM) (path : List String) (depth : Nat)
    (entries : List FSEntry) :
    ∀ f ∈ fileItems (processEntries cfg path depth entries).1, skipEntry cfg f.name = false := by
  induction path, depth, entries using processEntries.induct cfg with
  | case1 path depth =>
    simp [processEntries]
  | case2 path depth fname fsize fdays fym fok rest hskip ih =>
    simpa [processEntries, hskip] using ih
  | case3 path depth fname fsize fdays fym rest hskip ih =>
    simp only [Bool.not_eq_true] at hskip
    intro f hf
    simp only [processEntries, hskip, Bool.false_eq_true, if_false, if_true,
      fileItems_cons_file, List.mem_cons] at hf
    rcases hf with rfl | hf
    · exact hskip
    · exact ih f hf
  | case4 path depth fname fsize fdays fym fok rest hskip hok ih =>
    simp only [Bool.not_eq_true] at hskip hok
    simpa [processEntries, hskip, hok] using ih
  | case5 path depth dname dentries dok rest hskip ih =>
    simpa [processEntries, hskip] using ih
  | case6 path depth dname dentries dok rest hskip hrec ih1 ih2 =>
    simp only [Bool.not_eq_true] at hskip
    intro f hf
    by_cases hde : depthExceeded cfg (depth + 1) = true
    · simp only [processEntries, hskip, hrec, Bool.false_eq_true, if_false, if_true, hde,
        List.nil_append] at hf
      exact ih1 f hf
    · cases dok with
      | false =>
        simp only [processEntries, hskip, hrec, Bool.false_eq_true, if_false, if_true, hde,
          List.nil_append] at hf
        exact ih1 f hf
      | true =>
        simp only [processEntries, hskip, hrec, Bool.false_eq_true, if_false, if_true, hde,
          fileItems_append, List.mem_append, fileItems_cons_dir, fileItems_nil,
          List.append_nil] at hf
        rcases hf with hf | hf
        · exact ih2 f hf
        · exact ih1 f hf
  | case7 path depth dname dentries dok rest hskip hrec ih =>
    simp only [Bool.not_eq_true] at hskip hrec
    simpa [processEntries, hskip, hrec] using ih

/-- Every FileInfo yielded by `scan_directory` passed the filters. -/
theorem fileItems_scanDirectory (cfg : ScanConfigM) (name : String) (path : List String)
    (listOk : Bool) (entries : List FSEntry) (depth : Nat) :
    ∀ f ∈ fileItems (scanDirectory cfg name path listOk entries depth),
      skipEntry cfg f.name = false := by
  intro f hf
  by_cases hde : depthExceeded cfg depth = true
  · simp [scanDirectory, hde] at hf
  · cases listOk with
    | false => simp [scanDirectory, hde] at hf
    | true =>
      simp only [scanDirectory, hde, Bool.false_eq_true, if_false, if_true,
        fileItems_append, List.mem_append, fileItems_cons_dir, fileItems_nil,
        List.append_nil] at hf
      exact processEntries_files_not_excluded cfg path depth entries f hf

theorem scan_foldl_aux (cfg : ScanConfigM) (roots : List RootM) (acc : ScanResultM) :
    roots.foldl
      (fun acc r =>
        let p := scanRoot cfg r
        ⟨acc.files ++ p.1, acc.directories ++ p.2⟩) acc =
      ⟨acc.files ++ (roots.map fun r => (scanRoot cfg r).1).flatten,
       acc.directories ++ (roots.map fun r => (scanRoot cfg r).2).flatten⟩ := by
  induction roots generalizing acc with
  | nil => simp
  | cons r rest ih => simp [List.foldl_cons, ih]

/-- The files of a scan are the concatenation of each root's files, in
root order. -/
theorem scan_files_eq (cfg : ScanConfigM) (roots : List RootM) :
    (scan cfg roots).files = (roots.map fun r => (scanRoot cfg r).1).flatten := by
  simp [scan, scan_foldl_aux]

/-- The directories of a scan are the concatenation of each root's
directories, in root order. -/
theorem scan_dirs_eq (cfg : ScanConfigM) (roots : List RootM) :
    (scan cfg roots).directories = (roots.map fun r => (scanRoot cfg r).2).flatten := by
  simp [scan, scan_foldl_aux]

/-- A root that is a single file (`target_path.is_file()` branch of
`scan`). -/
def rootIsFile : RootM → Bool
  | RootM.fileRoot .. => true
  | RootM.missing _ => false
  | RootM.dirRoot .. => false

/-- Default-shaped configuration used by concrete witnesses: recursive,
hidden files excluded, no depth limit, no exclude patterns. -/
def cfgPlain : ScanConfigM := ⟨true, false, none, []⟩

/-- Claim C2 (corrected).  When `scan_directory` visits a directory (depth
not exceeded, `iterdir` succeeded) the record it emits last carries the
count of its direct file children only and the count of its direct
subdirectories only, but its `total_size_bytes` is the sum of the sizes
of all FileInfo records emitted for the whole subtree — nested files
included — not the direct children's total alone. -/
theorem scanDirectory_record_shape (cfg : ScanConfigM) (name : String) (path : List String)
    (entries : List FSEntry) (depth : Nat) (hd : depthExceeded cfg depth = false) :
    scanDirectory cfg name path true entries depth =
      (processEntries cfg path depth entries).1 ++
        [Item.dirI ⟨path, name, directFileCount cfg entries,
          sumFileSizes (processEntries cfg path depth entries).1,
          directSubdirCount cfg entries, depth⟩] := by
  have h := processEntries_accumulators cfg path depth entries
  simp only [scanDirectory, hd, Bool.false_eq_true, if_false, if_true]
  rw [h.1, h.2.1, h.2.2]

/-- Witness for C2: the record shape theorem applied to a concrete
directory with one file of 5 bytes. -/
theorem scanDirectory_record_shape_witness :
    depthExceeded cfgPlain 0 = false ∧
    scanDirectory cfgPlain "a" ["a"] true [FSEntry.file "f" 5 0 "" true] 0 =
      (processEntries cfgPlain ["a"] 0 [FSEntry.file "f" 5 0 "" true]).1 ++
        [Item.dirI ⟨["a"], "a", directFileCount cfgPlain [FSEntry.file "f" 5 0 "" true],
          sumFileSizes (processEntries cfgPlain ["a"] 0 [FSEntry.file "f" 5 0 "" true]).1,
          directSubdirCount cfgPlain [FSEntry.file "f" 5 0 "" true], 0⟩] :=
  ⟨rfl, scanDirectory_record_shape cfgPlain "a" ["a"] [FSEntry.file "f" 5 0 "" true] 0 rfl⟩

/-- Counterexample for C2 as stated: directory `a` contains only the
subdirectory `b`, which contains the 5-byte file `f`.  The record for `a`
reports `file_count = 0` (direct children only) but `total_size_bytes = 5`
— the nested file's size — whereas the total byte size of the direct
children of `a` is `0`. -/
theorem scanDirectory_cumulative_size_cex :
    scanDirectory cfgPlain "a" ["a"] true
        [FSEntry.dir "b" [FSEntry.file "f" 5 0 "" true] true] 0 =
      [Item.fileI ⟨["a", "b", "f"], "f", "", 5, 0, ""⟩,
       Item.dirI ⟨["a", "b"], "b", 1, 5, 0, 1⟩,
       Item.dirI ⟨["a"], "a", 0, 5, 1, 0⟩] ∧
    directFileSizes cfgPlain [FSEntry.dir "b" [FSEntry.file "f" 5 0 "" true] true] = 0 := by
  constructor
  · simp +decide [scanDirectory, processEntries, depthExceeded, skipEntry, shouldExclude,
      strStarts, charsPrefixTest, pySuffix, lastDotSplit, sumFileSizes, cfgPlain]
  · decide

/-- Claim C3 (corrected).  Every file record in `ScanResult.files` either
came from a configured root that is itself a file — those are recorded
directly by `scan` with no exclude/hidden check at all — or it was
encountered inside a scanned directory, in which case its name passed the
hidden filter (when `include_hidden` is false) and the exclude patterns. -/
theorem scan_files_filtered (cfg : ScanConfigM) (roots : List RootM) :
    ∀ f ∈ (scan cfg roots).files,
      (∃ r ∈ roots, rootIsFile r = true ∧ f ∈ (scanRoot cfg r).1) ∨
        skipEntry cfg f.name = false := by
  intro f hf
  rw [scan_files_eq] at hf
  rcases List.mem_flatten.1 hf with ⟨l, hl, hfl⟩
  rcases List.mem_map.1 hl with ⟨r, hr, rfl⟩
  cases r with
  | missing n => simp [scanRoot] at hfl
  | fileRoot n size daysA cym ok =>
    exact Or.inl ⟨RootM.fileRoot n size daysA cym ok, hr, rfl, hfl⟩
  | dirRoot n entries ok =>
    refine Or.inr ?_
    simp only [scanRoot] at hfl
    exact fileItems_scanDirectory cfg n [n] ok entries 0 f hfl

/-- Witness for C3: a concrete scan of directory `d` containing `x.txt`;
the theorem instantiates to the emitted record, which satisfies the
filter disjunct. -/
theorem scan_files_filtered_witness :
    (⟨["d", "x.txt"], "x.txt", ".txt", 7, 0, ""⟩ : FileInfoM) ∈
      (scan cfgPlain [RootM.dirRoot "d" [FSEntry.file "x.txt" 7 0 "" true] true]).files ∧
    ((∃ r ∈ [RootM.dirRoot "d" [FSEntry.file "x.txt" 7 0 "" true] true],
        rootIsFile r = true ∧
          (⟨["d", "x.txt"], "x.txt", ".txt", 7, 0, ""⟩ : FileInfoM) ∈ (scanRoot cfgPlain r).1) ∨
      skipEntry cfgPlain "x.txt" = false) := by
  have hmem : (⟨["d", "x.txt"], "x.txt", ".txt", 7, 0, ""⟩ : FileInfoM) ∈
      (scan cfgPlain [RootM.dirRoot "d" [FSEntry.file "x.txt" 7 0 "" true] true]).files := by
    simp +decide [scan, scanRoot, scanDirectory, processEntries, depthExceeded, skipEntry,
      shouldExclude, strStarts, charsPrefixTest, pySuffix, lastDotSplit, fileItems, cfgPlain]
  exact ⟨hmem, scan_files_filtered cfgPlain _ _ hmem⟩

/-- Counterexample for C3 as stated: with `include_hidden = false`, a
configured root that is itself the hidden file `.secret` is recorded in
`ScanResult.files` anyway — `scan` applies no hidden/exclude check to
file roots. -/
theorem scan_hidden_fileroot_cex :
    (scan cfgPlain [RootM.fileRoot ".secret" 5 0 "" true]).files =
      [⟨[".secret"], ".secret", "", 5, 0, ""⟩] ∧
    cfgPlain.include_hidden = false ∧
    strStarts ".secret" "." = true := by
  refine ⟨?_, rfl, by decide⟩
  simp +decide [scan, scanRoot, pySuffix, lastDotSplit, cfgPlain]

theorem flatten_filter_exists_aux (g : RootM → List β) (hg : ∀ n, g (RootM.missing n) = [])
    (roots : List RootM) :
    ((roots.filter rootExistsB).map g).flatten = (roots.map g).flatten := by
  induction roots with
  | nil => simp
  | cons r rest ih =>
    cases r with
    | missing n => simp [rootExistsB, hg, ih]
    | fileRoot n size daysA cym ok => simp [rootExistsB, ih]
    | dirRoot n entries ok => simp [rootExistsB, ih]

/-- The core scanner skips non-existent roots entirely: scanning only the
roots that exist yields the same result as scanning the whole root list. -/
theorem scan_skips_missing (cfg : ScanConfigM) (roots : List RootM) :
    scan cfg (roots.filter rootExistsB) = scan cfg roots := by
  have hf : ∀ n, (scanRoot cfg (RootM.missing n)).1 = [] := fun _ => rfl
  have hd : ∀ n, (scanRoot cfg (RootM.missing n)).2 = [] := fun _ => rfl
  have h1 := flatten_filter_exists_aux (fun r => (scanRoot cfg r).1) hf roots
  have h2 := flatten_filter_exists_aux (fun r => (scanRoot cfg r).2) hd roots
  cases hres : scan cfg (roots.filter rootExistsB)
  cases hres2 : scan cfg roots
  have e1 := scan_files_eq cfg (roots.filter rootExistsB)
  have e2 := scan_files_eq cfg roots
  have e3 := scan_dirs_eq cfg (roots.filter rootExistsB)
  have e4 := scan_dirs_eq cfg roots
  rw [hres] at e1 e3
  rw [hres2] at e2 e4
  simp only at e1 e2 e3 e4
  congr 1
  · rw [e1, e2, h1]
  · rw [e3, e4, h2]

/-- Claim C9.  The scan pipeline never aborts because one of several
roots is missing: if at least one configured root exists, the `fo scan`
command proceeds and produces exactly the result of scanning the full
root list (the core scanner contributes nothing for missing roots).  When
no configured root exists at all, the command stops with `typer.Exit(1)`
— a caller-visible hard stop — instead of completing normally. -/
theorem cliScan_root_handling (cfg : ScanConfigM) (roots : List RootM) :
    ((∃ r ∈ roots, rootExistsB r = true) →
        cliScanCommand cfg roots = Except.ok (scan cfg roots)) ∧
    ((∀ r ∈ roots, rootExistsB r = false) →
        cliScanCommand cfg roots = Except.error ()) := by
  constructor
  · rintro ⟨r, hr, hex⟩
    have hne : roots.filter rootExistsB ≠ [] :=
      List.ne_nil_of_mem (List.mem_filter.2 ⟨hr, hex⟩)
    have hemp : (roots.filter rootExistsB).isEmpty = false := by
      rcases h : (roots.filter rootExistsB).isEmpty with _ | _
      · rfl
      · exact absurd (List.isEmpty_iff.1 h) hne
    simp only [cliScanCommand, hemp, Bool.false_eq_true, if_false]
    rw [scan_skips_missing]
  · intro h
    have hnil : roots.filter rootExistsB = [] :=
      List.filter_eq_nil_iff.2 fun r hr => by simp [h r hr]
    simp [cliScanCommand, hnil]

/-- Witness for C9: one missing and one existing root proceed normally;
a single missing root is a hard stop. -/
theorem cliScan_root_handling_witness :
    cliScanCommand cfgPlain [RootM.missing "x", RootM.fileRoot "a.txt" 3 0 "" true] =
      Except.ok (scan cfgPlain [RootM.missing "x", RootM.fileRoot "a.txt" 3 0 "" true]) ∧
    cliScanCommand cfgPlain [RootM.missing "x"] = Except.error () := by
  constructor
  · exact (cliScan_root_handling cfgPlain _).1
      ⟨RootM.fileRoot "a.txt" 3 0 "" true,
        List.mem_cons_of_mem _ (List.mem_cons_self _ _), rfl⟩
  · refine (cliScan_root_handling cfgPlain _).2 ?_
    intro r hr
    rcases List.mem_singleton.1 hr with rfl
    rfl

/-! ### Analyzer data model

Mirrors `src/fileorg/definition/analysis.py` and
`src/fileorg/core/analyzer.py`.  The hasher (`core/hasher.py`) is
modelled as a function `hashOf : List String → Option String`: `none` is
a failed digest (`compute_hash` returning `None` after a read error); the
per-instance path cache only makes repeated calls agree, which a function
does by construction. -/

/-- Group of duplicate files (`DuplicateGroup`). -/
structure DuplicateGroupM where
  file_hash : String
  size_bytes : Nat
  files : List (List String)
deriving DecidableEq

/-- Computed field `count`: number of duplicate files. -/
def DuplicateGroupM.count (g : DuplicateGroupM) : Nat := g.files.length

/-- Computed field `wasted_bytes = (count - 1) * size`; Python integers
are unbounded and signed, hence `Int`. -/
def DuplicateGroupM.wasted_bytes (g : DuplicateGroupM) : Int :=
  ((g.count : Int) - 1) * (g.size_bytes : Int)

/-- Large-file record (`LargeFile`); the `modified_at` timestamp is
carried along in the source and checked by nothing, so it is omitted. -/
structure LargeFileM where
  path : List String
  size_bytes : Nat
  extension : String
deriving DecidableEq

/-- Empty-directory record (`EmptyDirectory`). -/
structure EmptyDirectoryM where
  path : List String
  depth : Nat
deriving DecidableEq

/-- Analysis result (`AnalysisResult`); stale-file and chaotic-naming
detection are independent detectors no claim touches, so their lists are
omitted from the model. -/
structure AnalysisResultM where
  duplicates : List DuplicateGroupM
  large_files : List LargeFileM
  empty_directories : List EmptyDirectoryM
deriving DecidableEq

/-- Computed field `total_wasted_by_duplicates`: sum of the groups'
wasted bytes. -/
def total_wasted_by_duplicates (dups : List DuplicateGroupM) : Int :=
  (dups.map DuplicateGroupM.wasted_bytes).sum

/-- Python `int(q)` on an exact rational value: truncation toward zero
(floor for nonnegative values, ceiling for negative ones). -/
def pyInt (q : ℚ) : ℤ := if 0 ≤ q then ⌊q⌋ else ⌈q⌉

/-- Threshold initialisation of `FileAnalyzer.__init__`:
`int(large_threshold_mb * 1024 * 1024)`.  Scaling a float by `1024 * 1024`
is exact (power-of-two exponent shift), so the rational model loses
nothing. -/
def large_threshold_bytes (large_threshold_mb : ℚ) : ℤ :=
  pyInt (large_threshold_mb * 1024 * 1024)

/-- Build a `LargeFile` from a `FileInfo` as `_detect_large_files` does. -/
def toLargeFile (f : FileInfoM) : LargeFileM := ⟨f.path, f.size_bytes, f.extension⟩

/-- Model of `FileAnalyzer._detect_large_files`: keep files with
`size_bytes >= large_threshold_bytes`, sorted descending by size. -/
def detect_large_files (files : List FileInfoM) (thresholdBytes : Int) : List LargeFileM :=
  sortKeyDesc (fun lf => (lf.size_bytes : Int))
    ((files.filter fun f => thresholdBytes ≤ (f.size_bytes : Int)).map toLargeFile)

/-- One step of the `defaultdict(list)` size grouping: append `f` to the
group keyed by its size, creating the group at the end on first sight
(Python dicts preserve insertion order). -/
def addSizeGroup (gs : List (Nat × List FileInfoM)) (f : FileInfoM) :
    List (Nat × List FileInfoM) :=
  match gs with
  | [] => [(f.size_bytes, [f])]
  | (s, l) :: rest =>
    if s = f.size_bytes then (s, l ++ [f]) :: rest else (s, l) :: addSizeGroup rest f

/-- Phase 1 of `_detect_duplicates`: group the non-empty files by size. -/
def groupBySize (files : List FileInfoM) : List (Nat × List FileInfoM) :=
  files.foldl (fun gs f => if 0 < f.size_bytes then addSizeGroup gs f else gs) []

/-- The files that get hashed: members of the size groups with at least
two files, iterated in group order (size-1 groups are skipped with
`continue`). -/
def candidateFiles (files : List FileInfoM) : List FileInfoM :=
  (((groupBySize files).filter fun g => 2 ≤ g.2.length).map fun g => g.2).flatten

/-- One step of the `defaultdict(list)` hash grouping. -/
def addHashGroup (gs : List (String × List (List String))) (h : String) (p : List String) :
    List (String × List (List String)) :=
  match gs with
  | [] => [(h, [p])]
  | (k, l) :: rest =>
    if k = h then (k, l ++ [p]) :: rest else (k, l) :: addHashGroup rest h p

/-- Phase 2 of `_detect_duplicates`: hash every candidate and group the
paths by digest.  The guard mirrors Python `if file_hash:` — `None` and
the empty string are both falsy. -/
def hashGroups (files : List FileInfoM) (hashOf : List String → Option String) :
    List (String × List (List String)) :=
  (candidateFiles files).foldl
    (fun gs f =>
      match hashOf f.path with
      | some h => if h.isEmpty then gs else addHashGroup gs h f.path
      | none => gs) []

/-- Size lookup for a finished group:
`next((f.size_bytes for f in files if f.path == paths[0]), 0)`. -/
def groupSizeLookup (files : List FileInfoM) (p : List String) : Nat :=
  match files.find? fun f => f.path == p with
  | some f => f.size_bytes
  | none => 0

/-- Digest groups with at least two paths become `DuplicateGroup`s, in
group order, with the size looked up from the first path. -/
def buildDuplicateGroups (files : List FileInfoM)
    (hashOf : List String → Option String) : List DuplicateGroupM :=
  (hashGroups files hashOf).filterMap fun g =>
    match g with
    | (h, p0 :: p1 :: rest) => some ⟨h, groupSizeLookup files p0, p0 :: p1 :: rest⟩
    | _ => none

/-- Model of `FileAnalyzer._detect_duplicates`: size pre-filter, digest
grouping, groups of two or more, sorted descending by wasted bytes. -/
def detect_duplicates (files : List FileInfoM)
    (hashOf : List String → Option String) : List DuplicateGroupM :=
  sortKeyDesc DuplicateGroupM.wasted_bytes (buildDuplicateGroups files hashOf)

/-- Computed field `DirectoryInfo.is_empty`. -/
def isEmptyDir (d : DirInfoM) : Bool :=
  d.file_count == 0 && d.subdirectory_count == 0

/-- Model of `FileAnalyzer._detect_empty_directories`. -/
def detect_empty_directories (dirs : List DirInfoM) : List EmptyDirectoryM :=
  (dirs.filter isEmptyDir).map fun d => ⟨d.path, d.depth⟩

/-- Model of `FileAnalyzer.analyze` restricted to the detectors the
claims concern: duplicates run only when `compute_hashes` is true. -/
def analyze (files : List FileInfoM) (dirs : List DirInfoM) (thresholdBytes : Int)
    (computeHashes : Bool) (hashOf : List String → Option String) : AnalysisResultM where
  duplicates := if computeHashes then detect_duplicates files hashOf else []
  large_files := detect_large_files files thresholdBytes
  empty_directories := detect_empty_directories dirs

/-! ### Duplicate detection: provenance lemmas -/

theorem addSizeGroup_members (P : FileInfoM → Prop) (f : FileInfoM) (hf : P f) :
    ∀ (gs : List (Nat × List FileInfoM)), (∀ g ∈ gs, ∀ x ∈ g.2, P x) →
      ∀ g ∈ addSizeGroup gs f, ∀ x ∈ g.2, P x := by
  intro gs
  induction gs with
  | nil =>
    intro _ g hg x hx
    simp only [addSizeGroup, List.mem_singleton] at hg
    subst hg
    rcases List.mem_singleton.1 hx with rfl
    exact hf
  | cons g0 rest ih =>
    obtain ⟨s, l⟩ := g0
    intro hgs g hg x hx
    simp only [addSizeGroup] at hg
    by_cases hs : s = f.size_bytes
    · rw [if_pos hs] at hg
      rcases List.mem_cons.1 hg with rfl | hg
      · rcases List.mem_append.1 hx with hx | hx
        · exact hgs (s, l) (List.mem_cons_self _ _) x hx
        · rcases List.mem_singleton.1 hx with rfl
          exact hf
      · exact hgs g (List.mem_cons_of_mem _ hg) x hx
    · rw [if_neg hs] at hg
      rcases List.mem_cons.1 hg with rfl | hg
      · exact hgs _ (List.mem_cons_self _ _) x hx
      · exact ih (fun g hg => hgs g (List.mem_cons_of_mem _ hg)) g hg x hx

theorem foldl_sizeGroups_members (P : FileInfoM → Prop) :
    ∀ (fs : List FileInfoM) (acc : List (Nat × List FileInfoM)),
      (∀ g ∈ acc, ∀ x ∈ g.2, P x) → (∀ f ∈ fs, P f) →
      ∀ g ∈ fs.foldl (fun gs f => if 0 < f.size_bytes then addSizeGroup gs f else gs) acc,
        ∀ x ∈ g.2, P x := by
  intro fs
  induction fs with
  | nil =>
    intro acc hacc _ g hg
    rw [List.foldl_nil] at hg
    exact hacc g hg
  | cons f rest ih =>
    intro acc hacc hfs
    simp only [List.foldl_cons]
    by_cases hsz : 0 < f.size_bytes
    · rw [if_pos hsz]
      exact ih _ (addSizeGroup_members P f (hfs f (List.mem_cons_self _ _)) acc hacc)
        (fun x hx => hfs x (List.mem_cons_of_mem _ hx))
    · rw [if_neg hsz]
      exact ih _ hacc (fun x hx => hfs x (List.mem_cons_of_mem _ hx))

/-- Every file that gets hashed came from the scan's file list. -/
theorem candidateFiles_subset (files : List FileInfoM) :
    ∀ f ∈ candidateFiles files, f ∈ files := by
  intro f hf
  simp only [candidateFiles, List.mem_flatten, List.mem_map, List.mem_filter] at hf
  rcases hf with ⟨l, ⟨g, ⟨hg, _⟩, rfl⟩, hfl⟩
  exact foldl_sizeGroups_members (fun x => x ∈ files) files [] (by simp)
    (fun x hx => hx) g hg f hfl

theorem addHashGroup_inv (Q : String → List String → Prop) (h : String) (p : List String)
    (hp : Q h p) :
    ∀ (gs : List (String × List (List String))), (∀ g ∈ gs, ∀ q ∈ g.2, Q g.1 q) →
      ∀ g ∈ addHashGroup gs h p, ∀ q ∈ g.2, Q g.1 q := by
  intro gs
  induction gs with
  | nil =>
    intro _ g hg q hq
    simp only [addHashGroup, List.mem_singleton] at hg
    subst hg
    rcases List.mem_singleton.1 hq with rfl
    exact hp
  | cons g0 rest ih =>
    obtain ⟨k, l⟩ := g0
    intro hgs g hg q hq
    simp only [addHashGroup] at hg
    by_cases hk : k = h
    · rw [if_pos hk] at hg
      rcases List.mem_cons.1 hg with rfl | hg
      · rcases List.mem_append.1 hq with hq | hq
        · exact hgs (k, l) (List.mem_cons_self _ _) q hq
        · rcases List.mem_singleton.1 hq with rfl
          simpa [hk] using hp
      · exact hgs g (List.mem_cons_of_mem _ hg) q hq
    · rw [if_neg hk] at hg
      rcases List.mem_cons.1 hg with rfl | hg
      · exact hgs _ (List.mem_cons_self _ _) q hq
      · exact ih (fun g hg => hgs g (List.mem_cons_of_mem _ hg)) g hg q hq

/-- Every path in a digest group has that digest (truthy), and belongs to
some scanned file. -/
theorem hashGroups_inv (files : List FileInfoM) (hashOf : List String → Option String) :
    ∀ g ∈ hashGroups files hashOf, ∀ p ∈ g.2,
      hashOf p = some g.1 ∧ ∃ f ∈ files, f.path = p := by
  have aux : ∀ (fs : List FileInfoM) (acc : List (String × List (List String))),
      (∀ g ∈ acc, ∀ p ∈ g.2, hashOf p = some g.1 ∧ ∃ f ∈ files, f.path = p) →
      (∀ f ∈ fs, f ∈ files) →
      ∀ g ∈ fs.foldl
          (fun gs f =>
            match hashOf f.path with
            | some h => if h.isEmpty then gs else addHashGroup gs h f.path
            | none => gs) acc,
        ∀ p ∈ g.2, hashOf p = some g.1 ∧ ∃ f ∈ files, f.path = p := by
    intro fs
    induction fs with
    | nil =>
      intro acc hacc _ g hg
      rw [List.foldl_nil] at hg
      exact hacc g hg
    | cons f rest ih =>
      intro acc hacc hfs
      simp only [List.foldl_cons]
      rcases hh : hashOf f.path with _ | h
      · exact ih acc hacc (fun x hx => hfs x (List.mem_cons_of_mem _ hx))
      · by_cases he : h.isEmpty
        · simp only [hh, he, if_true]
          exact ih acc hacc (fun x hx => hfs x (List.mem_cons_of_mem _ hx))
        · simp only [hh, he, Bool.false_eq_true, if_false]
          refine ih _ (addHashGroup_inv
            (fun k q => hashOf q = some k ∧ ∃ f' ∈ files, f'.path = q) h f.path
            ⟨hh, f, hfs f (List.mem_cons_self _ _), rfl⟩ acc hacc) ?_
          exact fun x hx => hfs x (List.mem_cons_of_mem _ hx)
  exact aux (candidateFiles files) [] (by simp) (candidateFiles_subset files)

/-- Every produced duplicate group has at least two paths, all drawn from
one digest group, with the size looked up from the first path. -/
theorem buildDuplicateGroups_inv (files : List FileInfoM)
    (hashOf : List String → Option String) :
    ∀ grp ∈ buildDuplicateGroups files hashOf,
      2 ≤ grp.files.length ∧
      (grp.file_hash, grp.files) ∈ hashGroups files hashOf ∧
      grp.size_bytes = groupSizeLookup files (grp.files.headD []) := by
  intro grp hgrp
  simp only [buildDuplicateGroups, List.mem_filterMap] at hgrp
  rcases hgrp with ⟨⟨h, ps⟩, hmem, heq⟩
  match ps, heq with
  | p0 :: p1 :: rest, heq =>
    simp only [Option.some.injEq] at heq
    subst heq
    refine ⟨by simp, hmem, rfl⟩

/-- Claim C1.  Under the digest-consistency assumption of section 4.2 of
the spec — equal digests mean equal content, hence equal recorded size
(SHA-256 collisions are negligible and the stat size matches the hashed
content) — every DuplicateGroup produced by `analyze` with
`compute_hashes = true` has at least two member paths, all its members
have exactly the group's digest, and every scanned file at a member path
has the group's stored `size_bytes`. -/
theorem analyze_duplicate_groups_invariant (files : List FileInfoM) (dirs : List DirInfoM)
    (tb : Int) (hashOf : List String → Option String)
    (Hh : ∀ f ∈ files, ∀ g ∈ files,
      hashOf f.path = hashOf g.path → (hashOf f.path).isSome = true →
        f.size_bytes = g.size_bytes) :
    ∀ grp ∈ (analyze files dirs tb true hashOf).duplicates,
      2 ≤ grp.files.length ∧
      (∀ p ∈ grp.files, hashOf p = some grp.file_hash) ∧
      (∀ p ∈ grp.files, ∀ f ∈ files, f.path = p → f.size_bytes = grp.size_bytes) := by
  intro grp hgrp
  simp only [analyze, if_true, detect_duplicates] at hgrp
  rw [mem_sortKeyDesc] at hgrp
  obtain ⟨hlen, hgmem, hsize⟩ := buildDuplicateGroups_inv files hashOf grp hgrp
  have hinv := hashGroups_inv files hashOf (grp.file_hash, grp.files) hgmem
  refine ⟨hlen, fun p hp => (hinv p hp).1, ?_⟩
  obtain ⟨p0, ps, hps⟩ : ∃ p0 ps, grp.files = p0 :: ps := by
    cases hfs : grp.files with
    | nil => rw [hfs] at hlen; simp at hlen
    | cons a l => exact ⟨a, l, rfl⟩
  have hp0 : p0 ∈ grp.files := by rw [hps]; exact List.mem_cons_self _ _
  obtain ⟨hhash0, f0, hf0, hf0p⟩ := hinv p0 hp0
  rcases hfind : files.find? (fun f => f.path == p0) with _ | fm
  · exact absurd (by simpa using List.find?_eq_none.1 hfind f0 hf0) (by simp [hf0p])
  · have hfmp : fm.path = p0 := by simpa using List.find?_some hfind
    have hfmmem : fm ∈ files := List.mem_of_find?_eq_some hfind
    have hsz : grp.size_bytes = fm.size_bytes := by
      rw [hsize, hps]
      simp [groupSizeLookup, hfind]
    intro p hp f hf hfp
    obtain ⟨hhashp, -⟩ := hinv p hp
    have h1 : hashOf f.path = hashOf fm.path := by
      rw [hfp, hfmp, hhashp, hhash0]
    have h2 : (hashOf f.path).isSome = true := by
      rw [hfp, hhashp]
      rfl
    rw [hsz]
    exact Hh f hf fm hfmmem h1 h2

/-- Concrete digest function for the C1 witness: both files hash to
`"h"`. -/
def hashBoth : List String → Option String :=
  fun p => if p = ["a"] ∨ p = ["b"] then some "h" else none

/-- Witness for C1 on two 5-byte files with equal digests. -/
theorem analyze_duplicate_groups_invariant_witness :
    (analyze [⟨["a"], "a", "", 5, 0, ""⟩, ⟨["b"], "b", "", 5, 0, ""⟩] [] 0 true
        hashBoth).duplicates = [⟨"h", 5, [["a"], ["b"]]⟩] ∧
    ∀ grp ∈ (analyze [⟨["a"], "a", "", 5, 0, ""⟩, ⟨["b"], "b", "", 5, 0, ""⟩] [] 0 true
        hashBoth).duplicates,
      2 ≤ grp.files.length ∧
      (∀ p ∈ grp.files, hashBoth p = some grp.file_hash) ∧
      (∀ p ∈ grp.files, ∀ f ∈ [(⟨["a"], "a", "", 5, 0, ""⟩ : FileInfoM), ⟨["b"], "b", "", 5, 0, ""⟩],
        f.path = p → f.size_bytes = grp.size_bytes) :=
  ⟨by decide, analyze_duplicate_groups_invariant _ _ _ _ (by decide)⟩

/-- Claim C5.  A file whose digest computation fails (`compute_hash`
returns `None`) is omitted from digest grouping: its path appears in no
DuplicateGroup of the result. -/
theorem detect_duplicates_unavailable_omitted (files : List FileInfoM)
    (hashOf : List String → Option String) (p : List String) (hp : hashOf p = none) :
    ∀ grp ∈ detect_duplicates files hashOf, p ∉ grp.files := by
  intro grp hgrp hmem
  rw [detect_duplicates, mem_sortKeyDesc] at hgrp
  obtain ⟨-, hgmem, -⟩ := buildDuplicateGroups_inv files hashOf grp hgrp
  obtain ⟨hhash, -⟩ := hashGroups_inv files hashOf (grp.file_hash, grp.files) hgmem p hmem
  rw [hp] at hhash
  exact Option.noConfusion hhash

/-- Concrete digest function for the C5 witness: the digest of `a` is
unavailable, `b` and `c` hash to `"h"`. -/
def hashAFails : List String → Option String :=
  fun p => if p = ["a"] then none else some "h"

/-- Witness for C5: three same-size files, one with a failed digest; the
failed file is in no duplicate group (and the other two do group). -/
theorem detect_duplicates_unavailable_omitted_witness :
    hashAFails ["a"] = none ∧
    detect_duplicates [⟨["a"], "a", "", 5, 0, ""⟩, ⟨["b"], "b", "", 5, 0, ""⟩,
        ⟨["c"], "c", "", 5, 0, ""⟩] hashAFails = [⟨"h", 5, [["b"], ["c"]]⟩] ∧
    ∀ grp ∈ detect_duplicates [⟨["a"], "a", "", 5, 0, ""⟩, ⟨["b"], "b", "", 5, 0, ""⟩,
        ⟨["c"], "c", "", 5, 0, ""⟩] hashAFails, ["a"] ∉ grp.files :=
  ⟨rfl, by decide, detect_duplicates_unavailable_omitted _ _ _ rfl⟩

/-- Claim C7 (corrected).  A scanned file appears in the large-file list
precisely when its size is at least `int(threshold_mb * 1024 * 1024)` —
the byte threshold truncated to an integer by `int()` in
`FileAnalyzer.__init__` — and the list is sorted descending by size.  For
a non-integral product the comparison is against the truncation, not the
exact real value. -/
theorem detect_large_files_spec (mb : ℚ) (files : List FileInfoM) (f : FileInfoM)
    (hf : f ∈ files) :
    (toLargeFile f ∈ detect_large_files files (large_threshold_bytes mb) ↔
      large_threshold_bytes mb ≤ (f.size_bytes : Int)) ∧
    (detect_large_files files (large_threshold_bytes mb)).Pairwise
      (fun a b => (b.size_bytes : Int) ≤ (a.size_bytes : Int)) := by
  constructor
  · rw [detect_large_files, mem_sortKeyDesc]
    constructor
    · intro hmem
      rcases List.mem_map.1 hmem with ⟨g, hgf, hgl⟩
      rcases List.mem_filter.1 hgf with ⟨hgmem, hcond⟩
      have hsz : g.size_bytes = f.size_bytes := congrArg LargeFileM.size_bytes hgl
      rw [← hsz]
      simpa using hcond
    · intro hcond
      exact List.mem_map_of_mem _ (List.mem_filter.2 ⟨hf, by simpa using hcond⟩)
  · exact pairwise_sortKeyDesc _ _

/-- Witness for C7: with the default 100 MB threshold, a file of exactly
`100 * 1024 * 1024` bytes is reported large. -/
theorem detect_large_files_spec_witness :
    (toLargeFile ⟨["big"], "big", "", 104857600, 0, ""⟩ ∈
        detect_large_files [⟨["big"], "big", "", 104857600, 0, ""⟩]
          (large_threshold_bytes 100) ↔
      large_threshold_bytes 100 ≤ ((104857600 : Nat) : Int)) ∧
    (detect_large_files [⟨["big"], "big", "", 104857600, 0, ""⟩]
        (large_threshold_bytes 100)).Pairwise
      (fun a b => (b.size_bytes : Int) ≤ (a.size_bytes : Int)) :=
  detect_large_files_spec 100 _ _ (List.mem_singleton_self _)

/-- Counterexample for C7 as stated: take
`threshold_mb = 1048577 / 2097152` (an exact IEEE-754 double,
`0.5 + 2⁻²¹`), so `threshold_mb * 1024²  = 524288.5` exactly.  `int()`
truncates it to `524288`, and a file of `524288` bytes is reported large
by the code even though `524288 ≥ 524288.5` is false — the claimed exact
real-valued comparison does not hold for non-integer thresholds. -/
theorem detect_large_files_truncation_cex :
    toLargeFile ⟨["z"], "z", "", 524288, 0, ""⟩ ∈
      detect_large_files [⟨["z"], "z", "", 524288, 0, ""⟩]
        (large_threshold_bytes (1048577 / 2097152)) ∧
    ¬ ((1048577 / 2097152 : ℚ) * 1024 * 1024 ≤ ((524288 : Nat) : ℚ)) := by
  have hfloor : ⌊(1048577 / 2097152 : ℚ) * 1024 * 1024⌋ = 524288 := by
    rw [Int.floor_eq_iff]
    constructor
    · norm_num
    · norm_num
  have hth : large_threshold_bytes (1048577 / 2097152) = 524288 := by
    rw [large_threshold_bytes, pyInt, if_pos (by norm_num)]
    exact hfloor
  constructor
  · rw [hth]
    decide
  · push_cast
    norm_num

/-- Claim C8.  `wasted_bytes` is the pure derivation
`(count - 1) * size_bytes` with `count = len(files)`, the analysis
total is the sum of the groups' derived values, and — as in the spec
scenario — three 100-byte files sharing one digest yield one group
wasting exactly 200 bytes. -/
theorem wasted_bytes_derivation :
    (∀ g : DuplicateGroupM,
      g.wasted_bytes = ((g.files.length : Int) - 1) * (g.size_bytes : Int)) ∧
    (∀ dups : List DuplicateGroupM,
      total_wasted_by_duplicates dups =
        (dups.map fun g => ((g.files.length : Int) - 1) * (g.size_bytes : Int)).sum) ∧
    total_wasted_by_duplicates
      (detect_duplicates [⟨["a"], "a", "", 100, 0, ""⟩, ⟨["b"], "b", "", 100, 0, ""⟩,
        ⟨["c"], "c", "", 100, 0, ""⟩] (fun _ => some "H")) = 200 := by
  refine ⟨fun g => rfl, fun dups => rfl, by decide⟩

/-! ### Organizer data model

Mirrors `src/fileorg/core/organizer.py` (`SmartOrganizer`).  The learned
project table `_learned_patterns` is an insertion-ordered mapping of
project name to project path; `_suggest_folder` is parameterised over it.
The two date regexes are compiled to an explicit matcher: at any start
position the optional separators `[-_]?` are greedy but the month and day
groups cannot begin with `-` or `_`, so consuming a present separator is
forced and the regex engine's backtracking is unobservable — the matcher
below is therefore deterministic and equivalent.  `\d` is modelled as the
ASCII digits. -/

/-- The fixed extension-to-folder table `SmartOrganizer.TYPE_FOLDERS`. -/
def TYPE_FOLDERS : List (String × String) := [
  (".pdf", "Documents/PDFs"),
  (".doc", "Documents/Word"),
  (".docx", "Documents/Word"),
  (".txt", "Documents/Text"),
  (".md", "Documents/Markdown"),
  (".rtf", "Documents/Text"),
  (".xls", "Documents/Spreadsheets"),
  (".xlsx", "Documents/Spreadsheets"),
  (".csv", "Documents/Spreadsheets"),
  (".ppt", "Documents/Presentations"),
  (".pptx", "Documents/Presentations"),
  (".jpg", "Images"),
  (".jpeg", "Images"),
  (".png", "Images"),
  (".gif", "Images"),
  (".bmp", "Images"),
  (".svg", "Images"),
  (".webp", "Images"),
  (".screenshot", "Images/Screenshots"),
  (".mp4", "Videos"),
  (".avi", "Videos"),
  (".mkv", "Videos"),
  (".mov", "Videos"),
  (".wmv", "Videos"),
  (".webm", "Videos"),
  (".mp3", "Audio"),
  (".wav", "Audio"),
  (".flac", "Audio"),
  (".aac", "Audio"),
  (".m4a", "Audio"),
  (".zip", "Archives"),
  (".rar", "Archives"),
  (".7z", "Archives"),
  (".tar", "Archives"),
  (".gz", "Archives"),
  (".py", "Code/Python"),
  (".js", "Code/JavaScript"),
  (".ts", "Code/TypeScript"),
  (".java", "Code/Java"),
  (".cpp", "Code/C++"),
  (".c", "Code/C"),
  (".go", "Code/Go"),
  (".rs", "Code/Rust"),
  (".html", "Code/Web"),
  (".css", "Code/Web"),
  (".exe", "Programs"),
  (".msi", "Programs"),
  (".dmg", "Programs"),
  (".app", "Programs"),
  (".json", "Data"),
  (".xml", "Data"),
  (".yaml", "Data"),
  (".yml", "Data")]

/-- Strategy 1 of `_suggest_folder`: first learned project whose name is a
case-insensitive substring of the file name. -/
def findMatchingProject : List (String × String) → String → Option String
  | [], _ => none
  | (pname, _) :: rest, name =>
    if strContains (lowerStr name) (lowerStr pname) then some pname
    else findMatchingProject rest name

/-- Numeric value of an ASCII digit character. -/
def digitVal (c : Char) : Nat := c.toNat - 48

/-- The month group `(0[1-9]|1[0-2])` at the head of `l`; on success
returns the month value and the rest. -/
def parseMonth : List Char → Option (Nat × List Char)
  | c1 :: c2 :: rest =>
    if c1 = '0' ∧ 49 ≤ c2.toNat ∧ c2.toNat ≤ 57 then some (digitVal c2, rest)
    else if c1 = '1' ∧ 48 ≤ c2.toNat ∧ c2.toNat ≤ 50 then some (10 + digitVal c2, rest)
    else none
  | _ => none

/-- The day group `(0[1-9]|[12]\d|3[01])` at the head of `l`. -/
def parseDay : List Char → Bool
  | c1 :: c2 :: _ =>
    decide ((c1 = '0' ∧ 49 ≤ c2.toNat ∧ c2.toNat ≤ 57) ∨
      ((c1 = '1' ∨ c1 = '2') ∧ 48 ≤ c2.toNat ∧ c2.toNat ≤ 57) ∨
      (c1 = '3' ∧ (c2 = '0' ∨ c2 = '1')))
  | _ => false

/-- Consume one separator of `[-_]?` if present (greedy; forced, since no
month or day may start with a separator). -/
def skipSep : List Char → List Char
  | c :: rest => if c = '-' ∨ c = '_' then rest else c :: rest
  | [] => []

/-- Match the first date pattern
`(20\d{2})[-_]?(0[1-9]|1[0-2])[-_]?(0[1-9]|[12]\d|3[01])` anchored at the
head of `l`; returns `(year, month)` as `_extract_date_pattern` does. -/
def matchDate1At : List Char → Option (Nat × Nat)
  | c0 :: c1 :: d1 :: d2 :: rest =>
    if c0 = '2' ∧ c1 = '0' ∧ 48 ≤ d1.toNat ∧ d1.toNat ≤ 57 ∧ 48 ≤ d2.toNat ∧ d2.toNat ≤ 57 then
      match parseMonth (skipSep rest) with
      | some (m, rest2) =>
        if parseDay (skipSep rest2) then some (2000 + digitVal d1 * 10 + digitVal d2, m)
        else none
      | none => none
    else none
  | _ => none

/-- Match the second, separator-free pattern
`(20\d{2})(0[1-9]|1[0-2])(0[1-9]|[12]\d|3[01])` anchored at the head. -/
def matchDate2At : List Char → Option (Nat × Nat)
  | c0 :: c1 :: d1 :: d2 :: rest =>
    if c0 = '2' ∧ c1 = '0' ∧ 48 ≤ d1.toNat ∧ d1.toNat ≤ 57 ∧ 48 ≤ d2.toNat ∧ d2.toNat ≤ 57 then
      match parseMonth rest with
      | some (m, rest2) =>
        if parseDay rest2 then some (2000 + digitVal d1 * 10 + digitVal d2, m)
        else none
      | none => none
    else none
  | _ => none

/-- Leftmost match of a head-anchored matcher (`re.search`). -/
def searchDate (matchAt : List Char → Option (Nat × Nat)) : List Char → Option (Nat × Nat)
  | [] => none
  | c :: rest =>
    match matchAt (c :: rest) with
    | some r => some r
    | none => searchDate matchAt rest

/-- Model of `SmartOrganizer._extract_date_pattern`: try the separated
pattern over the whole name, then the contiguous one. -/
def extract_date_pattern (filename : String) : Option (Nat × Nat) :=
  match searchDate matchDate1At filename.toList with
  | some r => some r
  | none => searchDate matchDate2At filename.toList

/-- Width-2 zero padding, Python `f"..{month:02d}"`. -/
def pad2 (n : Nat) : String :=
  if n < 10 then "0" ++ Nat.repr n else Nat.repr n

/-- The date rule's target folder `f"Archives/{year}/{month:02d}"`. -/
def archiveDateFolder (y m : Nat) : String :=
  "Archives/" ++ Nat.repr y ++ "/" ++ pad2 m

/-- Screenshot keywords of `_is_screenshot` (substring test on the
lowercased name). -/
def screenshotKeywords : List String :=
  ["screenshot", "screen shot", "capture", "snip", "截图", "屏幕截图"]

/-- Drop `pat` from the head of `l`, or fail. -/
def stripPrefixChars : List Char → List Char → Option (List Char)
  | [], l => some l
  | _ :: _, [] => none
  | a :: as, b :: bs => if a = b then stripPrefixChars as bs else none

/-- Four consecutive ASCII digits at the head. -/
def fourDigitsAt : List Char → Bool
  | a :: b :: c :: d :: _ =>
    decide (48 ≤ a.toNat ∧ a.toNat ≤ 57 ∧ 48 ≤ b.toNat ∧ b.toNat ≤ 57 ∧
      48 ≤ c.toNat ∧ c.toNat ≤ 57 ∧ 48 ≤ d.toNat ∧ d.toNat ≤ 57)
  | _ => false

/-- Four consecutive digits anywhere in `l`. -/
def hasFourDigits : List Char → Bool
  | [] => false
  | c :: rest => fourDigitsAt (c :: rest) || hasFourDigits rest

/-- Model of `re.match(r"screen\s*shot.*\d{4}", s)`: literal `screen`,
greedy whitespace (forced: `shot` starts with a non-whitespace), literal
`shot`, then `.*\d{4}` — four consecutive digits before the first
newline, since `.` and `\d` do not match a newline. -/
def matchScreenShotRe (l : List Char) : Bool :=
  match stripPrefixChars "screen".toList l with
  | none => false
  | some r1 =>
    match stripPrefixChars "shot".toList (r1.dropWhile fun c => c.isWhitespace) with
    | none => false
    | some r2 => hasFourDigits (r2.takeWhile fun c => c ≠ '\n')

/-- Model of `re.match(r"截屏\d{4}", s)`. -/
def matchJiepingRe (l : List Char) : Bool :=
  match stripPrefixChars "截屏".toList l with
  | none => false
  | some r => fourDigitsAt r

/-- Model of `SmartOrganizer._is_screenshot` on the file name. -/
def is_screenshot (name : String) : Bool :=
  let nl := lowerStr name
  screenshotKeywords.any (fun p => strContains nl p) ||
    matchScreenShotRe nl.toList || matchJiepingRe nl.toList

/-- Rendering of `str(file.path.parent)` for a segment path. -/
def pathParentStr (p : List String) : String :=
  String.intercalate "/" p.dropLast

/-- Model of `SmartOrganizer._suggest_folder`: the ordered
first-match-wins rule chain.  Returns `(target folder?, reason)`. -/
def suggest_folder (patterns : List (String × String)) (f : FileInfoM) :
    Option String × String :=
  match findMatchingProject patterns f.name with
  | some pname => (some ("Projects/" ++ pname), "Matches project " ++ pname)
  | none =>
  match extract_date_pattern f.name with
  | some (y, m) =>
    (some (archiveDateFolder y m), "Date pattern detected: " ++ Nat.repr y ++ "-" ++ pad2 m)
  | none =>
  match TYPE_FOLDERS.lookup f.extension with
  | some folder => (some folder, "File type: " ++ f.extension)
  | none =>
  if is_screenshot f.name then
    (some ("Images/Screenshots/" ++ f.created_ym), "Screenshot detected")
  else if strContains (lowerStr (pathParentStr f.path)) "download" &&
      f.days_since_access > 30 then
    (some "Archives/Old Downloads", "Old download (>30 days)")
  else (none, "")

/-! ### Organizer lemmas: the date rule takes precedence -/

theorem parseMonth_bounds (l : List Char) (m : Nat) (rest : List Char)
    (h : parseMonth l = some (m, rest)) : 1 ≤ m ∧ m ≤ 12 := by
  match l with
  | [] => simp [parseMonth] at h
  | [c1] => simp [parseMonth] at h
  | c1 :: c2 :: rest0 =>
    simp only [parseMonth] at h
    split_ifs at h with h1 h2
    · simp only [Option.some.injEq, Prod.mk.injEq] at h
      obtain ⟨hm, -⟩ := h
      subst hm
      simp only [digitVal]
      omega
    · simp only [Option.some.injEq, Prod.mk.injEq] at h
      obtain ⟨hm, -⟩ := h
      subst hm
      simp only [digitVal]
      omega

theorem matchDate1At_bounds (l : List Char) (y m : Nat)
    (h : matchDate1At l = some (y, m)) : 2000 ≤ y ∧ y < 2100 ∧ 1 ≤ m ∧ m ≤ 12 := by
  match l with
  | [] => simp [matchDate1At] at h
  | [c0] => simp [matchDate1At] at h
  | [c0, c1] => simp [matchDate1At] at h
  | [c0, c1, d1] => simp [matchDate1At] at h
  | c0 :: c1 :: d1 :: d2 :: rest =>
    simp only [matchDate1At] at h
    split_ifs at h with hc
    rcases hpm : parseMonth (skipSep rest) with _ | ⟨mm, rest2⟩
    · rw [hpm] at h
      simp at h
    · rw [hpm] at h
      by_cases hpd : parseDay (skipSep rest2) = true
      · simp only [hpd, if_true, Option.some.injEq, Prod.mk.injEq] at h
        obtain ⟨hy, hm⟩ := h
        subst hy
        subst hm
        obtain ⟨-, -, h1a, h1b, h2a, h2b⟩ := hc
        have hb := parseMonth_bounds _ _ _ hpm
        simp only [digitVal]
        omega
      · simp [hpd] at h

theorem matchDate2At_bounds (l : List Char) (y m : Nat)
    (h : matchDate2At l = some (y, m)) : 2000 ≤ y ∧ y < 2100 ∧ 1 ≤ m ∧ m ≤ 12 := by
  match l with
  | [] => simp [matchDate2At] at h
  | [c0] => simp [matchDate2At] at h
  | [c0, c1] => simp [matchDate2At] at h
  | [c0, c1, d1] => simp [matchDate2At] at h
  | c0 :: c1 :: d1 :: d2 :: rest =>
    simp only [matchDate2At] at h
    split_ifs at h with hc
    rcases hpm : parseMonth rest with _ | ⟨mm, rest2⟩
    · rw [hpm] at h
      simp at h
    · rw [hpm] at h
      by_cases hpd : parseDay rest2 = true
      · simp only [hpd, if_true, Option.some.injEq, Prod.mk.injEq] at h
        obtain ⟨hy, hm⟩ := h
        subst hy
        subst hm
        obtain ⟨-, -, h1a, h1b, h2a, h2b⟩ := hc
        have hb := parseMonth_bounds _ _ _ hpm
        simp only [digitVal]
        omega
      · simp [hpd] at h

theorem searchDate_bounds (matchAt : List Char → Option (Nat × Nat))
    (hAt : ∀ l y m, matchAt l = some (y, m) → 2000 ≤ y ∧ y < 2100 ∧ 1 ≤ m ∧ m ≤ 12) :
    ∀ (l : List Char) (y m : Nat), searchDate matchAt l = some (y, m) →
      2000 ≤ y ∧ y < 2100 ∧ 1 ≤ m ∧ m ≤ 12 := by
  intro l
  induction l with
  | nil => intro y m h; simp [searchDate] at h
  | cons c rest ih =>
    intro y m h
    simp only [searchDate] at h
    rcases hma : matchAt (c :: rest) with _ | r
    · rw [hma] at h
      exact ih y m h
    · rw [hma] at h
      simp only [Option.some.injEq] at h
      subst h
      exact hAt (c :: rest) y m hma

/-- Any recognised date pattern yields a year in 2000..2099 and a month
in 1..12. -/
theorem extract_date_bounds (filename : String) (y m : Nat)
    (h : extract_date_pattern filename = some (y, m)) :
    2000 ≤ y ∧ y < 2100 ∧ 1 ≤ m ∧ m ≤ 12 := by
  simp only [extract_date_pattern] at h
  rcases h1 : searchDate matchDate1At filename.toList with _ | r
  · rw [h1] at h
    exact searchDate_bounds matchDate2At matchDate2At_bounds filename.toList y m h
  · rw [h1] at h
    simp only [Option.some.injEq] at h
    subst h
    exact searchDate_bounds matchDate1At matchDate1At_bounds filename.toList y m h1

theorem repr_year_length_aux :
    ∀ a < 10, ∀ b < 10, (Nat.repr (2000 + a * 10 + b)).length = 4 := by decide

theorem repr_year_length (y : Nat) (h1 : 2000 ≤ y) (h2 : y < 2100) :
    (Nat.repr y).length = 4 := by
  have ha : (y - 2000) / 10 < 10 := by omega
  have hb : (y - 2000) % 10 < 10 := by omega
  have hy : y = 2000 + (y - 2000) / 10 * 10 + (y - 2000) % 10 := by omega
  rw [hy]
  exact repr_year_length_aux _ ha _ hb

theorem pad2_length (m : Nat) (h1 : 1 ≤ m) (h2 : m ≤ 12) : (pad2 m).length = 2 := by
  have haux : ∀ m < 13, 1 ≤ m → (pad2 m).length = 2 := by decide
  exact haux m (by omega) h1

/-- The date rule's folder always has length 16 (`Archives/` + four-digit
year + `/` + two-digit month). -/
theorem archiveDateFolder_length (y m : Nat) (hy1 : 2000 ≤ y) (hy2 : y < 2100)
    (hm1 : 1 ≤ m) (hm2 : m ≤ 12) : (archiveDateFolder y m).length = 16 := by
  have h1 := repr_year_length y hy1 hy2
  have h2 := pad2_length m hm1 hm2
  simp only [archiveDateFolder, String.length_append, h1, h2]
  decide

/-- No folder in the fixed extension table has length 16. -/
theorem type_folders_lengths : ∀ p ∈ TYPE_FOLDERS, p.2.length ≠ 16 := by decide

theorem lookup_mem_pairs :
    ∀ (l : List (String × String)) (k v : String), l.lookup k = some v → (k, v) ∈ l := by
  intro l
  induction l with
  | nil => intro k v h; simp [List.lookup] at h
  | cons p rest ih =>
    obtain ⟨a, b⟩ := p
    intro k v h
    simp only [List.lookup] at h
    rcases hk : k == a with _ | _
    · rw [hk] at h
      exact List.mem_cons_of_mem _ (ih k v h)
    · rw [hk] at h
      simp only [Option.some.injEq] at h
      subst h
      have : k = a := eq_of_beq hk
      subst this
      exact List.mem_cons_self _ _

/-- Claim C4.  A file whose name contains a recognisable date pattern and
whose extension is in the fixed table, and which matches no learned
project token, is assigned the date rule's folder
`Archives/<year>/<month:02>` — never the extension table's folder (the
two cannot even coincide: the date folder has length 16 and no table
folder does). -/
theorem organizer_date_rule_precedence (patterns : List (String × String)) (f : FileInfoM)
    (y m : Nat) (tf : String)
    (hproj : findMatchingProject patterns f.name = none)
    (hdate : extract_date_pattern f.name = some (y, m))
    (hext : TYPE_FOLDERS.lookup f.extension = some tf) :
    (suggest_folder patterns f).1 = some (archiveDateFolder y m) ∧
    archiveDateFolder y m ≠ tf := by
  constructor
  · simp [suggest_folder, hproj, hdate]
  · obtain ⟨hy1, hy2, hm1, hm2⟩ := extract_date_bounds f.name y m hdate
    have hlen := archiveDateFolder_length y m hy1 hy2 hm1 hm2
    have hne := type_folders_lengths (f.extension, tf) (lookup_mem_pairs _ _ _ hext)
    intro heq
    rw [heq] at hlen
    exact hne hlen

/-- Witness for C4 on the spec's own example `report_2024-03-15.pdf`
with no learned projects: the organizer assigns `Archives/2024/03`, not
`Documents/PDFs`. -/
theorem organizer_date_rule_precedence_witness :
    (suggest_folder [] ⟨["report_2024-03-15.pdf"], "report_2024-03-15.pdf", ".pdf", 1, 0, ""⟩).1 =
      some (archiveDateFolder 2024 3) ∧
    archiveDateFolder 2024 3 ≠ "Documents/PDFs" ∧
    archiveDateFolder 2024 3 = "Archives/2024/03" :=
  ⟨(organizer_date_rule_precedence []
      ⟨["report_2024-03-15.pdf"], "report_2024-03-15.pdf", ".pdf", 1, 0, ""⟩ 2024 3
      "Documents/PDFs" rfl (by decide) (by decide)).1,
   (organizer_date_rule_precedence []
      ⟨["report_2024-03-15.pdf"], "report_2024-03-15.pdf", ".pdf", 1, 0, ""⟩ 2024 3
      "Documents/PDFs" rfl (by decide) (by decide)).2,
   by decide⟩

/-! ### Executor data model

Mirrors `src/fileorg/core/executor.py` (`FileExecutor`).  A target
directory's contents are a list of existing names; `_resolve_conflict`'s
`while True` loop is modelled with fuel `existing.length + 1`, which is
proved sufficient below (`resolve_conflict` never returns `none`): the
candidate names `base_1`, `base_2`, ... are pairwise distinct, so among
any `existing.length + 1` of them one is free. -/

/-- The candidate name `f"{base}_{counter}{ext}"`. -/
def mkSuffixName (base ext : String) (n : Nat) : String :=
  base ++ "_" ++ Nat.repr n ++ ext

/-- The `while True` loop of `_resolve_conflict`. -/
def resolveLoop (existing : List String) (base ext : String) : Nat → Nat → Option String
  | 0, _ => none
  | fuel + 1, counter =>
    let nm := mkSuffixName base ext counter
    if nm ∈ existing then resolveLoop existing base ext fuel (counter + 1) else some nm

/-- Model of `FileExecutor._resolve_conflict`: the target name itself if
free, otherwise the first free `base_<n>` name with `n` counted up from
1. -/
def resolve_conflict (existing : List String) (base ext : String) : Option String :=
  if (base ++ ext) ∈ existing then resolveLoop existing base ext (existing.length + 1) 1
  else some (base ++ ext)

/-! ### Injectivity of the decimal rendering

`Nat.repr` is injective; this backs the pigeonhole argument that the
conflict loop always terminates within the fuel.  The proof goes through
a fuel-free recursion `decDigits` equal to `Nat.toDigits 10`. -/

/-- Decimal digit characters of `n`, most significant first. -/
def decDigits (n : Nat) : List Char :=
  if n < 10 then [Nat.digitChar n]
  else decDigits (n / 10) ++ [Nat.digitChar (n % 10)]
termination_by n
decreasing_by exact Nat.div_lt_self (by omega) (by omega)

theorem decDigits_lt (n : Nat) (h : n < 10) : decDigits n = [Nat.digitChar n] := by
  conv_lhs => rw [decDigits.eq_def]
  rw [if_pos h]

theorem decDigits_ge (n : Nat) (h : ¬ n < 10) :
    decDigits n = decDigits (n / 10) ++ [Nat.digitChar (n % 10)] := by
  conv_lhs => rw [decDigits.eq_def]
  rw [if_neg h]

theorem decDigits_ne_nil (n : Nat) : decDigits n ≠ [] := by
  by_cases h : n < 10
  · rw [decDigits_lt n h]
    simp
  · rw [decDigits_ge n h]
    simp

theorem toDigitsCore_eq_decDigits :
    ∀ (n fuel : Nat) (ds : List Char), n < fuel →
      Nat.toDigitsCore 10 fuel n ds = decDigits n ++ ds := by
  intro n
  induction n using Nat.strong_induction_on with
  | _ n ih =>
    intro fuel ds hlt
    match fuel with
    | f + 1 =>
      simp only [Nat.toDigitsCore]
      by_cases h0 : n / 10 = 0
      · rw [if_pos h0]
        have hn : n < 10 := by omega
        rw [decDigits_lt n hn, Nat.mod_eq_of_lt hn]
        rfl
      · rw [if_neg h0]
        have hn : ¬ n < 10 := by omega
        have hdiv : n / 10 < n := Nat.div_lt_self (by omega) (by omega)
        rw [ih (n / 10) hdiv f _ (by omega), decDigits_ge n hn]
        simp [List.append_assoc]

theorem repr_eq_decDigits (n : Nat) : Nat.repr n = (decDigits n).asString := by
  rw [Nat.repr, Nat.toDigits, toDigitsCore_eq_decDigits n (n + 1) [] (Nat.lt_succ_self n),
    List.append_nil]

theorem digitChar_inj_lt10 : ∀ a < 10, ∀ b < 10, Nat.digitChar a = Nat.digitChar b → a = b := by
  decide

theorem decDigits_injective : ∀ a b : Nat, decDigits a = decDigits b → a = b := by
  intro a
  induction a using Nat.strong_induction_on with
  | _ a ih =>
    intro b hab
    by_cases ha : a < 10
    · by_cases hb : b < 10
      · rw [decDigits_lt a ha, decDigits_lt b hb] at hab
        simp only [List.cons.injEq] at hab
        exact digitChar_inj_lt10 a ha b hb hab.1
      · rw [decDigits_lt a ha, decDigits_ge b hb] at hab
        have hlen := congrArg List.length hab
        simp at hlen
        exact absurd hlen (decDigits_ne_nil _)
    · by_cases hb : b < 10
      · rw [decDigits_ge a ha, decDigits_lt b hb] at hab
        have hlen := congrArg List.length hab
        simp at hlen
        exact absurd hlen (decDigits_ne_nil _)
      · rw [decDigits_ge a ha, decDigits_ge b hb] at hab
        have hparts := List.append_inj' hab (by simp)
        have hdiv : a / 10 = b / 10 :=
          ih (a / 10) (Nat.div_lt_self (by omega) (by omega)) (b / 10) hparts.1
        have hmod : a % 10 = b % 10 := by
          have hc := hparts.2
          simp only [List.cons.injEq] at hc
          exact digitChar_inj_lt10 (a % 10) (Nat.mod_lt _ (by omega)) (b % 10)
            (Nat.mod_lt _ (by omega)) hc.1
        omega

theorem natRepr_injective : ∀ a b : Nat, Nat.repr a = Nat.repr b → a = b := by
  intro a b h
  rw [repr_eq_decDigits, repr_eq_decDigits] at h
  exact decDigits_injective a b (congrArg String.data h)

theorem strData_append (s t : String) : (s ++ t).data = s.data ++ t.data := rfl

theorem mkSuffixName_inj (base ext : String) (a b : Nat)
    (h : mkSuffixName base ext a = mkSuffixName base ext b) : a = b := by
  have hd := congrArg String.data h
  simp only [mkSuffixName, strData_append, List.append_assoc] at hd
  have h1 := List.append_cancel_left hd
  have h2 := List.append_cancel_left h1
  have h3 : (Nat.repr a).data = (Nat.repr b).data := List.append_cancel_right h2
  exact natRepr_injective a b (by
    have ha : Nat.repr a = String.mk (Nat.repr a).data := rfl
    have hb : Nat.repr b = String.mk (Nat.repr b).data := rfl
    rw [ha, hb, h3])

/-- Pigeonhole: among the first `existing.length + 1` candidate names one
is not taken. -/
theorem exists_fresh_suffix (existing : List String) (base ext : String) :
    ∃ j, j < existing.length + 1 ∧ mkSuffixName base ext (1 + j) ∉ existing := by
  by_contra hall
  push_neg at hall
  have hmem : ∀ j < existing.length + 1, mkSuffixName base ext (1 + j) ∈ existing := hall
  have hinj : Function.Injective (fun j => mkSuffixName base ext (1 + j)) := by
    intro j1 j2 hj
    have := mkSuffixName_inj base ext (1 + j1) (1 + j2) hj
    omega
  have hnd : ((List.range (existing.length + 1)).map
      (fun j => mkSuffixName base ext (1 + j))).Nodup :=
    (List.nodup_range _).map hinj
  have hsub : ((List.range (existing.length + 1)).map
      (fun j => mkSuffixName base ext (1 + j))).toFinset ⊆ existing.toFinset := by
    intro x hx
    rw [List.mem_toFinset] at hx
    rcases List.mem_map.1 hx with ⟨j, hj, rfl⟩
    rw [List.mem_toFinset]
    exact hmem j (List.mem_range.1 hj)
  have hc1 : ((List.range (existing.length + 1)).map
      (fun j => mkSuffixName base ext (1 + j))).toFinset.card = existing.length + 1 := by
    rw [List.toFinset_card_of_nodup hnd]
    simp
  have hc2 := Finset.card_le_card hsub
  have hc3 := existing.toFinset_card_le
  omega

theorem resolveLoop_not_mem (existing : List String) (base ext : String) :
    ∀ (fuel counter : Nat) (r : String),
      resolveLoop existing base ext fuel counter = some r → r ∉ existing := by
  intro fuel
  induction fuel with
  | zero => intro counter r h; simp [resolveLoop] at h
  | succ f ih =>
    intro counter r h
    simp only [resolveLoop] at h
    by_cases hm : mkSuffixName base ext counter ∈ existing
    · rw [if_pos hm] at h
      exact ih (counter + 1) r h
    · rw [if_neg hm] at h
      simp only [Option.some.injEq] at h
      subst h
      exact hm

theorem resolveLoop_total (existing : List String) (base ext : String) :
    ∀ (fuel counter : Nat),
      (∃ j, j < fuel ∧ mkSuffixName base ext (counter + j) ∉ existing) →
      (resolveLoop existing base ext fuel counter).isSome = true := by
  intro fuel
  induction fuel with
  | zero =>
    rintro counter ⟨j, hj, -⟩
    omega
  | succ f ih =>
    rintro counter ⟨j, hj, hfree⟩
    simp only [resolveLoop]
    by_cases hm : mkSuffixName base ext counter ∈ existing
    · rw [if_pos hm]
      apply ih
      match j, hj, hfree with
      | 0, _, hfree => exact absurd hm (by simpa using hfree)
      | j' + 1, hj, hfree =>
        refine ⟨j', by omega, ?_⟩
        have harr : counter + 1 + j' = counter + (j' + 1) := by omega
        rw [harr]
        exact hfree
    · rw [if_neg hm]
      rfl

/-- Claim C6.  Conflict resolution in the Executor: (1) a first
conflicting move gets suffix `_1`; (2) with the plain name and `_1`
taken — the state after a first conflicting move in the same session —
the next gets `_2`; (3) the chosen name never equals a pre-existing name
in the target directory; (4) a free name is always found (the loop
terminates within the modelled fuel). -/
theorem resolve_conflict_spec (existing : List String) (base ext : String) :
    ((base ++ ext) ∈ existing → mkSuffixName base ext 1 ∉ existing →
        resolve_conflict existing base ext = some (mkSuffixName base ext 1)) ∧
    ((base ++ ext) ∈ existing → mkSuffixName base ext 1 ∈ existing →
        mkSuffixName base ext 2 ∉ existing →
        resolve_conflict existing base ext = some (mkSuffixName base ext 2)) ∧
    (∀ r, resolve_conflict existing base ext = some r → r ∉ existing) ∧
    (resolve_conflict existing base ext).isSome = true := by
  refine ⟨?_, ?_, ?_, ?_⟩
  · intro hmem hfree
    rw [resolve_conflict, if_pos hmem]
    simp only [resolveLoop]
    rw [if_neg hfree]
  · intro hmem h1 h2
    rw [resolve_conflict, if_pos hmem]
    obtain ⟨k, hk⟩ : ∃ k, existing.length = k + 1 := by
      match hl : existing.length with
      | 0 => exact absurd (List.length_eq_zero.1 hl ▸ h1) (List.not_mem_nil _)
      | k + 1 => exact ⟨k, rfl⟩
    rw [hk]
    simp [resolveLoop, h1, h2]
  · intro r h
    rw [resolve_conflict] at h
    by_cases hmem : (base ++ ext) ∈ existing
    · rw [if_pos hmem] at h
      exact resolveLoop_not_mem existing base ext _ _ r h
    · rw [if_neg hmem] at h
      simp only [Option.some.injEq] at h
      subst h
      exact hmem
  · rw [resolve_conflict]
    by_cases hmem : (base ++ ext) ∈ existing
    · rw [if_pos hmem]
      apply resolveLoop_total
      rcases exists_fresh_suffix existing base ext with ⟨j, hj, hfree⟩
      exact ⟨j, by omega, hfree⟩
    · rw [if_neg hmem]
      rfl

/-- Witness for C6: moving a third `a.txt` into a directory already
holding `a.txt` and `a_1.txt` picks `a_2.txt`, which collides with
nothing. -/
theorem resolve_conflict_spec_witness :
    resolve_conflict ["a.txt", "a_1.txt"] "a" ".txt" = some "a_2.txt" ∧
    "a_2.txt" ∉ ["a.txt", "a_1.txt"] := by
  have h := (resolve_conflict_spec ["a.txt", "a_1.txt"] "a" ".txt").2.1
    (by decide) (by decide) (by decide)
  have h2 : mkSuffixName "a" ".txt" 2 = "a_2.txt" := by decide
  rw [h2] at h
  exact ⟨h, by decide⟩

/-- One planned move operation (an entry of the organization plan). -/
structure OpM where
  source : String
  target : String
deriving DecidableEq

/-- Model of `FileExecutor.execute_organization_plan`.  The interactive
confirmation (`Confirm.ask`) and the outcome of `move_file` (true on
success or dry run, false on a caught failure) are oracles threaded
through an abstract world state `σ`, so any sequence of user answers and
filesystem outcomes is covered.  Returns
`((success, failed, skipped), final world)`. -/
def execute_organization_plan (confirm_each : Bool) (ask : σ → OpM → Bool × σ)
    (move : σ → OpM → Bool × σ) : σ → List OpM → (Nat × Nat × Nat) × σ
  | w, [] => ((0, 0, 0), w)
  | w, op :: rest =>
    if confirm_each && !(ask w op).1 then
      let r := execute_organization_plan confirm_each ask move (ask w op).2 rest
      ((r.1.1, r.1.2.1, r.1.2.2 + 1), r.2)
    else
      let w1 := if confirm_each then (ask w op).2 else w
      let mv := move w1 op
      let r := execute_organization_plan confirm_each ask move mv.2 rest
      if mv.1 then ((r.1.1 + 1, r.1.2.1, r.1.2.2), r.2)
      else ((r.1.1, r.1.2.1 + 1, r.1.2.2), r.2)

/-- Claim C10.  For every plan and every confirmation policy, the counts
partition the plan exactly: `success + failed + skipped` equals the
number of entries (each iteration increments exactly one counter). -/
theorem execute_plan_counts {σ : Type} (confirm_each : Bool) (ask : σ → OpM → Bool × σ)
    (move : σ → OpM → Bool × σ) :
    ∀ (plan : List OpM) (w : σ),
      (execute_organization_plan confirm_each ask move w plan).1.1 +
        (execute_organization_plan confirm_each ask move w plan).1.2.1 +
        (execute_organization_plan confirm_each ask move w plan).1.2.2 = plan.length := by
  intro plan
  induction plan with
  | nil => intro w; simp [execute_organization_plan]
  | cons op rest ih =>
    intro w
    simp only [execute_organization_plan, List.length_cons]
    by_cases hc : (confirm_each && !(ask w op).1) = true
    · rw [if_pos hc]
      dsimp only
      have := ih (ask w op).2
      omega
    · rw [if_neg hc]
      by_cases hmv : (move (if confirm_each then (ask w op).2 else w) op).1 = true
      · rw [if_pos hmv]
        dsimp only
        have := ih (move (if confirm_each then (ask w op).2 else w) op).2
        omega
      · rw [if_neg hmv]
        dsimp only
        have := ih (move (if confirm_each then (ask w op).2 else w) op).2
        omega
